import Mathlib

/-!
Verification of the pecunio ledger core against its specification.

The definitions below are a shallow embedding of the Rust sources:
  * `src/domain/money.rs`       — `Cents`, `format_cents`, `parse_cents`
  * `src/domain/transfer.rs`    — `Transfer`, `Transfer::new`, reversals
  * `src/domain/ledger.rs`      — balances and reversal validation
  * `src/domain/scheduled_transfer.rs` — the recurrence engine

Modelling conventions:
  * `Cents` (Rust `i64`) is modelled as `Int`; where the 64-bit width is
    observable (the `money.rs` string conversions, whose `i64::abs` and
    `str::parse::<i64>` check the machine range), the range checks are
    modelled explicitly and a debug-mode overflow panic is modelled as a
    distinguished outcome.
  * `Uuid` values (wallet ids, transfer ids) are opaque identifiers with
    decidable equality; they are modelled as `Nat`.  `Uuid::new_v4()` and
    `Utc::now()` are nondeterministic inputs and appear as parameters.
  * `HashMap<WalletId, Cents>` is modelled as an association list with
    unique keys; `*map.entry(k).or_insert(0) += d` is `mapAdd`.
  * `assert!` failures (panics) are modelled by an `Option` result where
    `none` means the assertion fired.
  * `chrono::DateTime<Utc>` is modelled as a calendar date plus the second
    of the day; comparison is lexicographic on
    (year, month, day, second-of-day), which agrees with chrono's timeline
    order for valid UTC dates.
-/

namespace Pecunio

/-- Wallet identifier (`WalletId = Uuid`), modelled as an opaque id. -/
abbrev WalletId := Nat

/-- Transfer identifier (`TransferId = Uuid`), modelled as an opaque id. -/
abbrev TransferId := Nat

/-- Money in integer cents (`pub type Cents = i64`).  Ledger arithmetic is
modelled over unbounded `Int`; the string-conversion functions model the
64-bit range explicitly. -/
abbrev Cents := Int

/-! ## Dates (`chrono` as used by `scheduled_transfer.rs`) -/

/-- A calendar date (`chrono::NaiveDate`): year, month (1-12), day (1-31). -/
structure Date where
  year : Int
  month : Nat
  day : Nat
deriving DecidableEq, Repr

/-- A UTC timestamp (`chrono::DateTime<Utc>`): date plus second of day. -/
structure DateTime where
  date : Date
  sec : Nat
deriving DecidableEq, Repr

/-- Proleptic-Gregorian leap-year rule used by chrono. -/
def isLeap (y : Int) : Prop := y % 4 = 0 ∧ (y % 400 = 0 ∨ y % 100 ≠ 0)

instance (y : Int) : Decidable (isLeap y) := by unfold isLeap; infer_instance

/-- Number of days in a month of a given year. -/
def daysInMonth (y : Int) (m : Nat) : Nat :=
  if m = 2 then (if isLeap y then 29 else 28)
  else if m = 4 ∨ m = 6 ∨ m = 9 ∨ m = 11 then 30
  else 31

/-- A date is a valid calendar date. -/
def validDate (d : Date) : Prop :=
  1 ≤ d.month ∧ d.month ≤ 12 ∧ 1 ≤ d.day ∧ d.day ≤ daysInMonth d.year d.month

instance (d : Date) : Decidable (validDate d) := by unfold validDate; infer_instance

/-- Strict order on dates: lexicographic on (year, month, day).  For valid
calendar dates this is chrono's timeline order. -/
def dateLt (a b : Date) : Prop :=
  a.year < b.year ∨ (a.year = b.year ∧
    (a.month < b.month ∨ (a.month = b.month ∧ a.day < b.day)))

instance (a b : Date) : Decidable (dateLt a b) := by unfold dateLt; infer_instance

/-- Strict order on timestamps: lexicographic on (date, second-of-day). -/
def dtLt (a b : DateTime) : Prop :=
  dateLt a.date b.date ∨ (a.date = b.date ∧ a.sec < b.sec)

instance (a b : DateTime) : Decidable (dtLt a b) := by unfold dtLt; infer_instance

/-- Non-strict order on timestamps. -/
def dtLe (a b : DateTime) : Prop := dtLt a b ∨ a = b

instance (a b : DateTime) : Decidable (dtLe a b) := by unfold dtLe; infer_instance

/-- The timestamp order is total: if `¬ b < a` then `a ≤ b`. -/
theorem dtLe_of_not_dtLt {a b : DateTime} (h : ¬ dtLt b a) : dtLe a b := by
  obtain ⟨⟨ya, ma, da⟩, sa⟩ := a
  obtain ⟨⟨yb, mb, db⟩, sb⟩ := b
  simp only [dtLt, dtLe, dateLt, DateTime.mk.injEq, Date.mk.injEq] at h ⊢
  omega

/-! ## Transfers (`src/domain/transfer.rs`) -/

/-- `pub struct Transfer` with all its fields.  `id` is the `Uuid` drawn at
construction time; strings are Lean `String`s. -/
structure Transfer where
  id : TransferId
  sequence : Int
  from_wallet : WalletId
  to_wallet : WalletId
  amount_cents : Cents
  timestamp : DateTime
  recorded_at : DateTime
  description : Option String
  category : Option String
  tags : List String
  reverses : Option TransferId
  external_ref : Option String
deriving DecidableEq, Repr

namespace Transfer

/-- `Transfer::new`.  The fresh `Uuid::new_v4()` and `Utc::now()` appear as
the parameters `id` and `recorded_at`.  The Rust function begins with
`assert!(amount_cents > 0, "Transfer amount must be positive")`; a panic is
modelled as `none`. -/
def new (id : TransferId) (from_wallet to_wallet : WalletId)
    (amount_cents : Cents) (timestamp recorded_at : DateTime) :
    Option Transfer :=
  if amount_cents > 0 then
    some
      { id := id
        sequence := 0
        from_wallet := from_wallet
        to_wallet := to_wallet
        amount_cents := amount_cents
        timestamp := timestamp
        recorded_at := recorded_at
        description := none
        category := none
        tags := []
        reverses := none
        external_ref := none }
  else
    none

/-- `Transfer::with_description`. -/
def with_description (t : Transfer) (d : String) : Transfer :=
  { t with description := some d }

/-- `Transfer::with_reverses`. -/
def with_reverses (t : Transfer) (original_id : TransferId) : Transfer :=
  { t with reverses := some original_id }

/-- `Transfer::create_partial_reversal`.  The Rust function begins with
`assert!(amount_cents > 0 && amount_cents <= self.amount_cents, ...)`; a
panic is modelled as `none`.  The fresh id and the two `Utc::now()` calls
appear as parameters. -/
def create_partial_reversal (t : Transfer) (id : TransferId)
    (now recorded_at : DateTime) (amount_cents : Cents) : Option Transfer :=
  if amount_cents > 0 ∧ amount_cents ≤ t.amount_cents then
    (Transfer.new id t.to_wallet t.from_wallet amount_cents now
        recorded_at).map fun r =>
      (r.with_reverses t.id).with_description
        ("Partial reversal of: " ++ (t.description.getD ("(no description)")))
  else
    none

end Transfer

/-! ## Ledger (`src/domain/ledger.rs`) -/

/-- `*balances.entry(k).or_insert(0) += d` on the association-list model of
`HashMap<WalletId, Cents>`: add `d` to key `k`'s entry, inserting `0` first
when the key is absent. -/
def mapAdd (m : List (WalletId × Cents)) (k : WalletId) (d : Cents) :
    List (WalletId × Cents) :=
  match m with
  | [] => [(k, d)]
  | (k', v) :: rest =>
    if k' = k then (k', v + d) :: rest else (k', v) :: mapAdd rest k d

/-- `HashMap::get` on the association-list model. -/
def mapGet (m : List (WalletId × Cents)) (k : WalletId) : Option Cents :=
  match m with
  | [] => none
  | (k', v) :: rest => if k' = k then some v else mapGet rest k

/-- Sum of all values of the map (`balances.values().sum()`). -/
def mapValuesSum (m : List (WalletId × Cents)) : Cents :=
  (m.map Prod.snd).sum

/-- `compute_balance`: single fold over the transfer list; `+amount` when
the transfer is incoming, `-amount` when outgoing (the `to_wallet` branch
is tested first, exactly as in the source). -/
def compute_balance (wallet_id : WalletId) (transfers : List Transfer) :
    Cents :=
  transfers.foldl
    (fun balance transfer =>
      if transfer.to_wallet = wallet_id then balance + transfer.amount_cents
      else if transfer.from_wallet = wallet_id then
        balance - transfer.amount_cents
      else balance)
    0

/-- `compute_all_balances`: one pass; for each transfer subtract the amount
from the `from_wallet` entry and add it to the `to_wallet` entry. -/
def compute_all_balances (transfers : List Transfer) :
    List (WalletId × Cents) :=
  transfers.foldl
    (fun balances transfer =>
      mapAdd (mapAdd balances transfer.from_wallet (-transfer.amount_cents))
        transfer.to_wallet transfer.amount_cents)
    []

/-- `total_reversed_amount`: sum of amounts of transfers whose `reverses`
field equals `some original_id`. -/
def total_reversed_amount (original_id : TransferId)
    (transfers : List Transfer) : Cents :=
  ((transfers.filter (fun t => t.reverses = some original_id)).map
    (fun t => t.amount_cents)).sum

/-- `pub enum ReversalError`. -/
inductive ReversalError where
  | exceedsOriginalAmount (original_amount already_reversed requested : Cents)
deriving DecidableEq, Repr

/-- `validate_reversal`. -/
def validate_reversal (original : Transfer) (reversal_amount : Cents)
    (all_transfers : List Transfer) : Except ReversalError Unit :=
  let already_reversed := total_reversed_amount original.id all_transfers
  if already_reversed + reversal_amount > original.amount_cents then
    Except.error
      (ReversalError.exceedsOriginalAmount original.amount_cents
        already_reversed reversal_amount)
  else
    Except.ok ()

/-! ## Recurrence engine (`src/domain/scheduled_transfer.rs`) -/

/-- `pub enum RecurrencePattern`. -/
inductive RecurrencePattern where
  | daily
  | weekly
  | monthly
  | yearly
deriving DecidableEq, Repr

/-- `pub enum ScheduleStatus`. -/
inductive ScheduleStatus where
  | active
  | paused
  | completed
deriving DecidableEq, Repr

/-- `pub struct ScheduledTransfer`. -/
structure ScheduledTransfer where
  id : Nat
  name : String
  from_wallet : WalletId
  to_wallet : WalletId
  amount_cents : Cents
  pattern : RecurrencePattern
  start_date : DateTime
  end_date : Option DateTime
  last_executed_at : Option DateTime
  description : Option String
  category : Option String
  status : ScheduleStatus
  created_at : DateTime
deriving DecidableEq, Repr

/-- The calendar successor of a date.  `date + chrono::Duration::days(1)`
on a UTC timestamp is the next calendar day at the same time of day. -/
def nextDay (d : Date) : Date :=
  if d.day < daysInMonth d.year d.month then ⟨d.year, d.month, d.day + 1⟩
  else if d.month < 12 then ⟨d.year, d.month + 1, 1⟩
  else ⟨d.year + 1, 1, 1⟩

/-- `dt + chrono::Duration::days(n)` for `n ≥ 0`. -/
def addDays (n : Nat) (dt : DateTime) : DateTime :=
  ⟨Nat.iterate nextDay n dt.date, dt.sec⟩

/-- `naive.with_day(1).unwrap().checked_add_months(Months::new(1)).unwrap()`:
the first day of the month after `d`'s month (`checked_add_months` only
returns `None` at chrono's year bound, which is not modelled). -/
def firstOfNextMonth (d : Date) : Date :=
  if d.month < 12 then ⟨d.year, d.month + 1, 1⟩ else ⟨d.year + 1, 1, 1⟩

/-- `NaiveDate::with_day`: same year/month with the given day, `none` when
that day does not exist in the month. -/
def withDay (d : Date) (day : Nat) : Option Date :=
  if 1 ≤ day ∧ day ≤ daysInMonth d.year d.month then
    some ⟨d.year, d.month, day⟩
  else none

/-- `NaiveDate::pred_opt().unwrap()`: the previous calendar day
(`pred_opt` only returns `None` at chrono's minimum date, not modelled). -/
def predDate (d : Date) : Date :=
  if 1 < d.day then ⟨d.year, d.month, d.day - 1⟩
  else if 1 < d.month then ⟨d.year, d.month - 1, daysInMonth d.year (d.month - 1)⟩
  else ⟨d.year - 1, 12, 31⟩

namespace ScheduledTransfer

/-- `ScheduledTransfer::add_one_month`: keep the day-of-month when it exists
in the next month, otherwise take the day before the first of the month
after the target month (= the last day of the target month).  The
`and_hms_opt(hour, minute, second)` call re-applies the original time of
day, which `sec` carries through unchanged. -/
def add_one_month (date : DateTime) : DateTime :=
  let naive := date.date
  let current_day := naive.day
  let next_month_first := firstOfNextMonth { naive with day := 1 }
  let next_date :=
    match withDay next_month_first current_day with
    | some d => d
    | none => predDate (firstOfNextMonth next_month_first)
  ⟨next_date, date.sec⟩

/-- `ScheduledTransfer::add_one_year`: `with_year(year + 1)`, falling back
to day 28 when the same month/day does not exist in the next year (i.e.
Feb 29 into a non-leap year).  In the fallback the Rust code computes
`date.with_day(28).and_then(|d| d.with_year(next_year)).unwrap()`; both
steps always succeed (every month has at least 28 days), giving day 28 of
the same month in the next year. -/
def add_one_year (date : DateTime) : DateTime :=
  let next_year := date.date.year + 1
  let next_date :=
    if date.date.day ≤ daysInMonth next_year date.date.month then
      (⟨next_year, date.date.month, date.date.day⟩ : Date)
    else
      (⟨next_year, date.date.month, 28⟩ : Date)
  ⟨next_date, date.sec⟩

/-- One period of advancement according to the pattern — the `match` shared
by `next_execution_date` and the `pending_executions` loop. -/
def advance (pattern : RecurrencePattern) (current : DateTime) : DateTime :=
  match pattern with
  | .daily => addDays 1 current
  | .weekly => addDays 7 current
  | .monthly => add_one_month current
  | .yearly => add_one_year current

/-- `ScheduledTransfer::next_execution_date`. -/
def next_execution_date (s : ScheduledTransfer) (now : DateTime) :
    Option DateTime :=
  if s.status ≠ ScheduleStatus.active then none
  else
    let reference_date := s.last_executed_at.getD s.start_date
    if dtLt now reference_date then some reference_date
    else
      let next := advance s.pattern reference_date
      match s.end_date with
      | some end_date => if dtLt end_date next then none else some next
      | none => some next

/-- The `loop` inside `pending_executions`, with explicit fuel.  The Rust
loop terminates because `advance` strictly increases the date while `now`
is fixed; every theorem about the loop below holds for every fuel value,
hence for the terminating Rust execution. -/
def pendingLoop (pattern : RecurrencePattern) (end_date : Option DateTime)
    (now : DateTime) :
    Nat → DateTime → List DateTime → List DateTime
  | 0, _, executions => executions
  | fuel + 1, current, executions =>
    let next := advance pattern current
    if dtLt now next then executions
    else
      match end_date with
      | some e =>
        if dtLt e next then executions
        else pendingLoop pattern end_date now fuel next (executions ++ [next])
      | none => pendingLoop pattern end_date now fuel next (executions ++ [next])

/-- Fuel used to run `pendingLoop` as a function; ample for any concrete
schedule considered here. -/
def pendingFuel : Nat := 100000

/-- `ScheduledTransfer::pending_executions`. -/
def pending_executions (s : ScheduledTransfer) (now : DateTime) :
    List DateTime :=
  if s.status ≠ ScheduleStatus.active then []
  else
    let current := s.last_executed_at.getD s.start_date
    if dtLt now current then []
    else
      let first :=
        if s.last_executed_at = none ∧ dtLe s.start_date now then
          ([s.start_date], s.start_date)
        else ([], current)
      pendingLoop s.pattern s.end_date now pendingFuel first.2 first.1

end ScheduledTransfer

/-! ## Money (`src/domain/money.rs`)

Strings are modelled as `List Char`.  All inputs of interest are ASCII, so
character count and Rust byte length coincide, and `decimal_str[..2]` is
`List.take 2`. -/

/-- The smallest `i64`, `-(2^63)`. -/
def i64Min : Int := -9223372036854775808

/-- The largest `i64`, `2^63 - 1`. -/
def i64Max : Int := 9223372036854775807

/-- An arithmetic result checked against the `i64` range, as Rust debug
builds do: `none` models an overflow panic. -/
def checkedI64 (v : Int) : Option Int :=
  if i64Min ≤ v ∧ v ≤ i64Max then some v else none

/-- `i64::abs`, which panics (debug) on `i64::MIN`.  The result is
nonnegative and is returned as a `Nat`. -/
def i64Abs (x : Int) : Option Nat :=
  if x = i64Min then none else some x.natAbs

/-- The character for a decimal digit value (`0 ≤ n ≤ 9`), as produced by
Rust's `Display` for integers. -/
def digitChar : Nat → Char
  | 0 => '0'
  | 1 => '1'
  | 2 => '2'
  | 3 => '3'
  | 4 => '4'
  | 5 => '5'
  | 6 => '6'
  | 7 => '7'
  | 8 => '8'
  | _ => '9'

/-- Whether a character is an ASCII decimal digit. -/
def isDigitCh (c : Char) : Bool := 48 ≤ c.toNat ∧ c.toNat ≤ 57

/-- The numeric value of an ASCII digit character. -/
def digitVal (c : Char) : Nat := c.toNat - 48

/-- Decimal representation of a natural number, most significant digit
first (Rust's `Display` for a nonnegative integer), with an accumulator
and explicit fuel so that it reduces structurally. -/
def natReprGo : Nat → Nat → List Char → List Char
  | 0, _, acc => acc
  | fuel + 1, n, acc =>
    if n < 10 then digitChar n :: acc
    else natReprGo fuel (n / 10) (digitChar (n % 10) :: acc)

/-- Decimal representation of a natural number.  `n + 1` units of fuel
always suffice (`n < 10 ^ (n + 1)`). -/
def natRepr (n : Nat) : List Char := natReprGo (n + 1) n []

/-- Recursion-friendly form of the decimal representation, used only in
proofs; `natRepr_eq_digitsList` identifies it with `natRepr`. -/
def natDigitsList (n : Nat) : List Char :=
  if _h : n < 10 then [digitChar n]
  else natDigitsList (n / 10) ++ [digitChar (n % 10)]
  termination_by n
  decreasing_by exact Nat.div_lt_self (by omega) (by omega)

/-- `format!("{:02}", r)` for `0 ≤ r ≤ 99`: the decimal representation
left-padded with `'0'` to width 2. -/
def pad2 (n : Nat) : List Char :=
  let s := natRepr n
  if s.length < 2 then '0' :: s else s

/-- `format_cents`: sign, then `abs/100`, `'.'`, and the two-digit
zero-padded `abs%100`.  `none` models the `i64::abs` panic at `i64::MIN`
(debug build). -/
def format_cents (cents : Cents) : Option (List Char) :=
  (i64Abs cents).map fun abs_cents =>
    let sign := if cents < 0 then ['-'] else []
    let units := abs_cents / 100
    let remainder := abs_cents % 100
    sign ++ natRepr units ++ '.' :: pad2 remainder

/-- The value of a digit string, most significant digit first. -/
def digitsVal (s : List Char) : Nat :=
  s.foldl (fun a c => 10 * a + digitVal c) 0

/-- `str::parse::<i64>`: an optional single leading `'+'` or `'-'`,
followed by one or more ASCII digits, whose value must fit in `i64`;
everything else is a parse error (`none`). -/
def parseI64 (s : List Char) : Option Int :=
  match s with
  | [] => none
  | c :: rest =>
    let digits := if c = '+' ∨ c = '-' then rest else c :: rest
    if digits = [] then none
    else if digits.all isDigitCh then
      let v : Int :=
        if c = '-' then -(digitsVal digits : Int) else (digitsVal digits : Int)
      if i64Min ≤ v ∧ v ≤ i64Max then some v else none
    else none

/-- `str::split` on a separator character: always at least one part; a
separator at either end yields an empty part there. -/
def splitCh (sep : Char) : List Char → List (List Char)
  | [] => [[]]
  | c :: rest =>
    if c = sep then [] :: splitCh sep rest
    else
      match splitCh sep rest with
      | [] => [[c]]
      | p :: ps => (c :: p) :: ps

/-- Whether a character is trimmed by `str::trim` (the ASCII whitespace
relevant here). -/
def isWsCh (c : Char) : Bool := c = ' ' ∨ c = '\t' ∨ c = '\n' ∨ c = '\r'

/-- `str::trim`. -/
def trimWs (s : List Char) : List Char :=
  ((s.dropWhile isWsCh).reverse.dropWhile isWsCh).reverse

/-- Outcome of `parse_cents` in a Rust debug build: a value, the typed
`ParseCentsError::InvalidFormat` error, or an arithmetic-overflow panic. -/
inductive ParseOutcome where
  | ok (v : Cents)
  | invalidFormat
  | panicOverflow
deriving DecidableEq, Repr

/-- `parse_cents`: trim; record and strip leading `'-'`s; split on `'.'`;
one part means whole units (`×100`), two parts add the decimal part scaled
to cents (one digit `×10`, two digits verbatim, more than two truncated to
the first two), and any other number of parts is `InvalidFormat`.  The
component parses are Rust `i64` parses; the `units * 100 + decimal`
arithmetic and the final negation are checked as in a debug build. -/
def parse_cents (input : List Char) : ParseOutcome :=
  let input := trimWs input
  let negative := input.head? = some '-'
  let input := input.dropWhile (fun c => c = '-')
  let parts := splitCh '.' input
  match parts with
  | [p0] =>
    match parseI64 p0 with
    | none => ParseOutcome.invalidFormat
    | some units =>
      match checkedI64 (units * 100) with
      | none => ParseOutcome.panicOverflow
      | some cents =>
        if negative then
          match checkedI64 (-cents) with
          | none => ParseOutcome.panicOverflow
          | some c => ParseOutcome.ok c
        else ParseOutcome.ok cents
  | [p0, p1] =>
    let unitsOpt := if p0 = [] then some 0 else parseI64 p0
    match unitsOpt with
    | none => ParseOutcome.invalidFormat
    | some units =>
      let decOpt : Option Int :=
        match p1.length with
        | 0 => some 0
        | 1 => (parseI64 p1).map (· * 10)
        | 2 => parseI64 p1
        | _ => parseI64 (p1.take 2)
      match decOpt with
      | none => ParseOutcome.invalidFormat
      | some decimal_cents =>
        match checkedI64 (units * 100) with
        | none => ParseOutcome.panicOverflow
        | some u100 =>
          match checkedI64 (u100 + decimal_cents) with
          | none => ParseOutcome.panicOverflow
          | some cents =>
            if negative then
              match checkedI64 (-cents) with
              | none => ParseOutcome.panicOverflow
              | some c => ParseOutcome.ok c
            else ParseOutcome.ok cents
  | _ => ParseOutcome.invalidFormat

/-- The balance read out of the map with default `0` (a proof-side
abbreviation, not part of the source). -/
def getBal (m : List (WalletId × Cents)) (w : WalletId) : Cents :=
  (mapGet m w).getD 0

/-- Number of occurrences of a character in a string (a proof-side
abbreviation, not part of the source). -/
def countCh (sep : Char) (s : List Char) : Nat :=
  (s.filter (fun c => c = sep)).length

/-! ## Sample values used in concrete statements -/

/-- A fixed timestamp for concrete transfers (its value is irrelevant to
the ledger computations). -/
def sampleDT : DateTime := ⟨⟨2024, 1, 1⟩, 0⟩

/-- A concrete transfer with the fields the ledger computations read. -/
def mkTransfer (id : TransferId) (src dst : WalletId) (amt : Cents)
    (rev : Option TransferId) : Transfer :=
  { id := id, sequence := 0, from_wallet := src, to_wallet := dst
    amount_cents := amt, timestamp := sampleDT, recorded_at := sampleDT
    description := none, category := none, tags := []
    reverses := rev, external_ref := none }

/-- A timestamp at midnight of the given calendar date. -/
def dtOf (y : Int) (m d : Nat) : DateTime := ⟨⟨y, m, d⟩, 0⟩

/-- A concrete active scheduled transfer. -/
def mkSchedule (pat : RecurrencePattern) (start : DateTime)
    (e last : Option DateTime) : ScheduledTransfer :=
  { id := 1, name := "test", from_wallet := 1, to_wallet := 2
    amount_cents := 1000, pattern := pat, start_date := start
    end_date := e, last_executed_at := last, description := none
    category := none, status := ScheduleStatus.active, created_at := start }

/-! ## Ledger lemmas -/

/-- Reading a key after `mapAdd`: the touched key gains `d` (over a default
of `0`), every other key is unchanged. -/
theorem mapGet_mapAdd (m : List (WalletId × Cents)) (k : WalletId) (d : Cents)
    (w : WalletId) :
    mapGet (mapAdd m k d) w =
      if k = w then some ((mapGet m w).getD 0 + d) else mapGet m w := by
  induction m with
  | nil =>
    by_cases h : k = w <;> simp [mapAdd, mapGet, h]
  | cons p rest ih =>
    obtain ⟨k', v⟩ := p
    by_cases h1 : k' = k
    · subst h1
      by_cases h2 : k' = w <;> simp [mapAdd, mapGet, h2]
    · by_cases h2 : k' = w
      · subst h2
        have hkw : ¬ k = k' := fun h => h1 h.symm
        simp [mapAdd, mapGet, h1, hkw]
      · simp [mapAdd, mapGet, h1, h2, ih]

theorem getBal_mapAdd (m : List (WalletId × Cents)) (k : WalletId) (d : Cents)
    (w : WalletId) :
    getBal (mapAdd m k d) w = getBal m w + if k = w then d else 0 := by
  unfold getBal
  rw [mapGet_mapAdd]
  by_cases h : k = w <;> simp [h]

theorem isSome_mapGet_mapAdd (m : List (WalletId × Cents)) (k : WalletId)
    (d : Cents) (w : WalletId) :
    (mapGet (mapAdd m k d) w).isSome = (decide (k = w) || (mapGet m w).isSome) := by
  rw [mapGet_mapAdd]
  by_cases h : k = w <;> simp [h]

/-- `mapAdd` changes the value sum by exactly the added delta. -/
theorem mapValuesSum_mapAdd (m : List (WalletId × Cents)) (k : WalletId)
    (d : Cents) :
    mapValuesSum (mapAdd m k d) = mapValuesSum m + d := by
  induction m with
  | nil => simp [mapAdd, mapValuesSum]
  | cons p rest ih =>
    obtain ⟨k', v⟩ := p
    by_cases h : k' = k
    · simp [mapAdd, mapValuesSum, h]
      ring
    · simp [mapAdd, mapValuesSum, h] at ih ⊢
      rw [ih]
      ring

/-- Folding the `compute_all_balances` step over any starting map leaves
the value sum unchanged (each transfer adds `-amount` and `+amount`). -/
theorem all_balances_foldl_sum (ts : List Transfer) :
    ∀ m : List (WalletId × Cents),
      mapValuesSum
        (ts.foldl
          (fun balances transfer =>
            mapAdd (mapAdd balances transfer.from_wallet (-transfer.amount_cents))
              transfer.to_wallet transfer.amount_cents)
          m) = mapValuesSum m := by
  induction ts with
  | nil => intro m; rfl
  | cons t ts ih =>
    intro m
    rw [List.foldl_cons, ih, mapValuesSum_mapAdd, mapValuesSum_mapAdd]
    ring

/-- The `compute_balance` fold over an arbitrary starting balance. -/
theorem compute_balance_foldl_shift (w : WalletId) (ts : List Transfer) :
    ∀ b : Cents,
      ts.foldl
        (fun balance transfer =>
          if transfer.to_wallet = w then balance + transfer.amount_cents
          else if transfer.from_wallet = w then balance - transfer.amount_cents
          else balance)
        b = b + compute_balance w ts := by
  induction ts with
  | nil => intro b; simp [compute_balance]
  | cons t ts ih =>
    intro b
    simp only [compute_balance, List.foldl_cons] at ih ⊢
    conv_lhs => rw [ih]
    conv_rhs => rw [ih]
    split_ifs <;> ring

theorem compute_balance_cons (w : WalletId) (t : Transfer) (ts : List Transfer) :
    compute_balance w (t :: ts) =
      (if t.to_wallet = w then t.amount_cents
       else if t.from_wallet = w then -t.amount_cents else 0) +
        compute_balance w ts := by
  show List.foldl _ _ (t :: ts) = _
  rw [List.foldl_cons, compute_balance_foldl_shift]
  split_ifs <;> ring

/-- Folding the `compute_all_balances` step adds exactly the per-wallet
`compute_balance` contribution to each key, provided no transfer has
`from_wallet = to_wallet`. -/
theorem all_balances_foldl_getBal (w : WalletId) (ts : List Transfer)
    (hs : ∀ t ∈ ts, t.from_wallet ≠ t.to_wallet) :
    ∀ m : List (WalletId × Cents),
      getBal
        (ts.foldl
          (fun balances transfer =>
            mapAdd (mapAdd balances transfer.from_wallet (-transfer.amount_cents))
              transfer.to_wallet transfer.amount_cents)
          m) w = getBal m w + compute_balance w ts := by
  induction ts with
  | nil => intro m; simp [compute_balance]
  | cons t ts ih =>
    intro m
    rw [List.foldl_cons, ih (fun t' ht' => hs t' (List.mem_cons_of_mem _ ht')),
      getBal_mapAdd, getBal_mapAdd, compute_balance_cons]
    have hne : t.from_wallet ≠ t.to_wallet := hs t (List.mem_cons_self _ _)
    by_cases h1 : t.to_wallet = w
    · by_cases h2 : t.from_wallet = w
      · exact absurd (h2.trans h1.symm) hne
      · simp only [h1, h2, if_true, if_false, if_pos rfl]
        ring
    · by_cases h2 : t.from_wallet = w
      · simp only [h1, h2, if_true, if_false, if_pos rfl, if_neg h1]
        ring
      · simp only [h1, h2, if_false, if_neg h1, if_neg h2]
        ring

/-- Every wallet touched by a transfer in the list (or already present in
the starting map) has an entry after folding the `compute_all_balances`
step. -/
theorem all_balances_foldl_isSome (w : WalletId) (ts : List Transfer) :
    ∀ m : List (WalletId × Cents),
      ((mapGet m w).isSome = true ∨
        ∃ t ∈ ts, t.from_wallet = w ∨ t.to_wallet = w) →
      (mapGet
        (ts.foldl
          (fun balances transfer =>
            mapAdd (mapAdd balances transfer.from_wallet (-transfer.amount_cents))
              transfer.to_wallet transfer.amount_cents)
          m) w).isSome = true := by
  induction ts with
  | nil =>
    intro m h
    rcases h with h | ⟨t, ht, _⟩
    · exact h
    · exact absurd ht (List.not_mem_nil t)
  | cons t ts ih =>
    intro m h
    rw [List.foldl_cons]
    rcases h with h | ⟨t', ht', hw⟩
    · exact ih _ (Or.inl (by rw [isSome_mapGet_mapAdd, isSome_mapGet_mapAdd, h]; simp))
    · rcases List.mem_cons.mp ht' with rfl | hmem
      · refine ih _ (Or.inl ?_)
        rcases hw with hw | hw <;>
          rw [isSome_mapGet_mapAdd, isSome_mapGet_mapAdd] <;> simp [hw]
      · exact ih _ (Or.inr ⟨t', hmem, hw⟩)

/-! ## Claim theorems: ledger -/

/-- Claim C1: for every finite list of transfers, the sum of all values in
the map returned by `compute_all_balances` equals zero (closed-system
invariant: each transfer contributes `-amount_cents` to its `from_wallet`
entry and `+amount_cents` to its `to_wallet` entry). -/
theorem claim_C1 (transfers : List Transfer) :
    mapValuesSum (compute_all_balances transfers) = 0 := by
  unfold compute_all_balances
  rw [all_balances_foldl_sum]
  rfl

/-- Claim C2: `validate_reversal original a ts` returns the
`ReversalError::ExceedsOriginalAmount` error if and only if
`already_reversed + a > original.amount_cents`, where `already_reversed`
is `total_reversed_amount original.id ts`; in particular a second 6000
reversal against a 10000 original with one existing 6000 reversal fails
with exactly that error. -/
theorem claim_C2 :
    (∀ (original : Transfer) (a : Cents) (ts : List Transfer),
        validate_reversal original a ts =
          Except.error
            (ReversalError.exceedsOriginalAmount original.amount_cents
              (total_reversed_amount original.id ts) a) ↔
          total_reversed_amount original.id ts + a > original.amount_cents) ∧
      validate_reversal (mkTransfer 1 10 20 10000 none) 6000
          [mkTransfer 2 20 10 6000 (some 1)] =
        Except.error (ReversalError.exceedsOriginalAmount 10000 6000 6000) := by
  constructor
  · intro o a ts
    simp only [validate_reversal]
    by_cases h : total_reversed_amount o.id ts + a > o.amount_cents
    · simp [h]
    · simp [h]
  · rfl

/-- Claim C10: `validate_reversal` checks only the upper bound; every
requested amount `a` with `already_reversed + a ≤ original.amount_cents` is
accepted, including `a = 0` and negative `a`. -/
theorem claim_C10 (original : Transfer) (a : Cents) (ts : List Transfer)
    (h : total_reversed_amount original.id ts + a ≤ original.amount_cents) :
    validate_reversal original a ts = Except.ok () := by
  simp only [validate_reversal]
  have hng : ¬ total_reversed_amount original.id ts + a > original.amount_cents := by
    linarith
  rw [if_neg hng]

/-- Witness for C10 at a concrete original (10000 cents, 6000 already
reversed) with requested amounts `0` and `-500`. -/
theorem claim_C10_witness :
    validate_reversal (mkTransfer 1 10 20 10000 none) 0
        [mkTransfer 2 20 10 6000 (some 1)] = Except.ok () ∧
      validate_reversal (mkTransfer 1 10 20 10000 none) (-500)
        [mkTransfer 2 20 10 6000 (some 1)] = Except.ok () :=
  ⟨claim_C10 _ _ _ (by decide), claim_C10 _ _ _ (by decide)⟩

/-- Counterexample to C5 as stated: for a self-transfer (equal source and
destination wallet) the map entry is `0` while `compute_balance` counts
`+amount` (its `to_wallet` branch is checked first), so the two
computations disagree. -/
theorem claim_C5_counterexample :
    ¬ (mapGet (compute_all_balances [mkTransfer 1 7 7 100 none]) 7 =
        some (compute_balance 7 [mkTransfer 1 7 7 100 none])) := by
  decide

/-- Claim C5 (amended): for every list of transfers in which no transfer
has `from_wallet = to_wallet`, and every wallet id `w` appearing as source
or destination of some transfer in the list, the entry
`compute_all_balances` assigns to `w` equals `compute_balance w`. -/
theorem claim_C5 (ts : List Transfer) (w : WalletId)
    (hs : ∀ t ∈ ts, t.from_wallet ≠ t.to_wallet)
    (hw : ∃ t ∈ ts, t.from_wallet = w ∨ t.to_wallet = w) :
    mapGet (compute_all_balances ts) w = some (compute_balance w ts) := by
  unfold compute_all_balances
  have hsome := all_balances_foldl_isSome w ts [] (Or.inr hw)
  obtain ⟨v, hv⟩ := Option.isSome_iff_exists.mp hsome
  have hval := all_balances_foldl_getBal w ts hs []
  unfold getBal at hval
  rw [hv] at hval
  simp [mapGet] at hval
  rw [hv, hval]

/-- Witness for the amended C5 at a concrete one-transfer list. -/
theorem claim_C5_witness :
    mapGet (compute_all_balances [mkTransfer 1 5 6 100 none]) 5 =
      some (compute_balance 5 [mkTransfer 1 5 6 100 none]) :=
  claim_C5 _ _ (by decide) (by decide)

/-- Claim C4, evaluated on the code as written: `Transfer::new` opens with
`assert!(amount_cents > 0)` and `create_partial_reversal` with
`assert!(amount_cents > 0 && amount_cents <= self.amount_cents)`, so every
invalid amount makes construction panic (modelled as `none`) instead of
returning a structured error value. -/
theorem claim_C4 :
    (∀ (id : TransferId) (src dst : WalletId) (amt : Cents)
        (ts recAt : DateTime),
        amt ≤ 0 → Transfer.new id src dst amt ts recAt = none) ∧
      (∀ (t : Transfer) (id : TransferId) (now recAt : DateTime) (amt : Cents),
        amt ≤ 0 ∨ t.amount_cents < amt →
          t.create_partial_reversal id now recAt amt = none) := by
  constructor
  · intro id src dst amt ts recAt h
    simp only [Transfer.new]
    have hng : ¬ amt > 0 := by linarith
    rw [if_neg hng]
  · intro t id now recAt amt h
    simp only [Transfer.create_partial_reversal]
    have hng : ¬ (amt > 0 ∧ amt ≤ t.amount_cents) := by
      rintro ⟨h1, h2⟩
      rcases h with h | h <;> linarith
    rw [if_neg hng]

/-- Witness for C4: amount `0` passed to `Transfer::new` and amount
`20000` (above the 10000-cent original) passed to
`create_partial_reversal` both panic. -/
theorem claim_C4_witness :
    Transfer.new 1 1 2 0 sampleDT sampleDT = none ∧
      (mkTransfer 1 10 20 10000 none).create_partial_reversal 2 sampleDT
        sampleDT 20000 = none :=
  ⟨claim_C4.1 1 1 2 0 sampleDT sampleDT (by decide),
    claim_C4.2 _ 2 sampleDT sampleDT 20000 (by decide)⟩

/-! ## Recurrence-engine lemmas -/

/-- The timestamp order is asymmetric: `a ≤ b` excludes `b < a`. -/
theorem not_dtLt_of_dtLe {a b : DateTime} (h : dtLe a b) : ¬ dtLt b a := by
  obtain ⟨⟨ya, ma, da⟩, sa⟩ := a
  obtain ⟨⟨yb, mb, db⟩, sb⟩ := b
  simp only [dtLt, dtLe, dateLt, DateTime.mk.injEq, Date.mk.injEq] at h ⊢
  omega

/-- For an active schedule with no end date whose reference date (here the
last execution) has been reached, `next_execution_date` advances the
reference date by one period. -/
theorem next_execution_date_active (s : ScheduledTransfer) (now dt : DateTime)
    (h1 : s.status = ScheduleStatus.active) (h2 : s.last_executed_at = some dt)
    (h3 : s.end_date = none) (h4 : dtLe dt now) :
    ScheduledTransfer.next_execution_date s now =
      some (ScheduledTransfer.advance s.pattern dt) := by
  simp only [ScheduledTransfer.next_execution_date, h1, h2, h3, Option.getD_some]
  rw [if_neg (by simp), if_neg (not_dtLt_of_dtLe h4)]

/-- Month-end clamping of `add_one_month`: when the reference day-of-month
exceeds the length of the next month, the result is the last day of the
next month, keeping the time of day. -/
theorem add_one_month_clamp (dt : DateTime) (hv : validDate dt.date)
    (hgt : daysInMonth (firstOfNextMonth dt.date).year
        (firstOfNextMonth dt.date).month < dt.date.day) :
    ScheduledTransfer.add_one_month dt =
      ⟨⟨(firstOfNextMonth dt.date).year, (firstOfNextMonth dt.date).month,
        daysInMonth (firstOfNextMonth dt.date).year
          (firstOfNextMonth dt.date).month⟩, dt.sec⟩ := by
  obtain ⟨⟨y, m, day⟩, sec⟩ := dt
  obtain ⟨hm1, hm2, hd1, hd2⟩ := hv
  dsimp only at hm1 hm2 hd1 hd2 hgt ⊢
  simp only [ScheduledTransfer.add_one_month]
  by_cases hm : m < 12
  · have hfirst : firstOfNextMonth ⟨y, m, day⟩ = ⟨y, m + 1, 1⟩ := by
      simp [firstOfNextMonth, hm]
    rw [hfirst] at hgt ⊢
    have hwd : withDay ⟨y, m + 1, 1⟩ day = none := by
      simp only [withDay]
      rw [if_neg]
      simp only [Date.mk.injEq] at hgt ⊢
      omega
    simp only [firstOfNextMonth, hm, if_pos, hwd]
    by_cases hm2' : m + 1 < 12
    · simp only [hm2', if_pos, predDate]
      rw [if_neg (by omega), if_pos (by omega)]
      simp
    · have hm11 : m = 11 := by omega
      subst hm11
      norm_num [predDate, daysInMonth]
  · have hm12 : m = 12 := by omega
    subst hm12
    have hfirst : firstOfNextMonth ⟨y, (12 : Nat), day⟩ = ⟨y + 1, 1, 1⟩ := by
      simp [firstOfNextMonth]
    rw [hfirst] at hgt
    have h31 : daysInMonth (y + 1) 1 = 31 := by norm_num [daysInMonth]
    have h31b : daysInMonth y 12 = 31 := by norm_num [daysInMonth]
    rw [h31b] at hd2
    simp only [Date.mk.injEq] at hgt
    rw [h31] at hgt
    omega

/-- Leap-day adjustment of `add_one_year`: advancing Feb 29 into a
non-leap year yields Feb 28 of the next year, keeping the time of day. -/
theorem add_one_year_feb29 (dt : DateTime) (hm : dt.date.month = 2)
    (hd : dt.date.day = 29) (hnl : ¬ isLeap (dt.date.year + 1)) :
    ScheduledTransfer.add_one_year dt =
      ⟨⟨dt.date.year + 1, 2, 28⟩, dt.sec⟩ := by
  obtain ⟨⟨y, m, day⟩, sec⟩ := dt
  simp only at hm hd hnl
  subst hm hd
  simp only [ScheduledTransfer.add_one_year]
  rw [if_neg]
  simp [daysInMonth, hnl]

/-- Every date the `pending_executions` loop appends (beyond the initial
accumulator) is bounded by the end date. -/
theorem pendingLoop_mem_bounded (pattern : RecurrencePattern)
    (e now : DateTime) :
    ∀ (fuel : Nat) (current : DateTime) (execs : List DateTime) (d : DateTime),
      d ∈ ScheduledTransfer.pendingLoop pattern (some e) now fuel current execs →
      d ∈ execs ∨ dtLe d e := by
  intro fuel
  induction fuel with
  | zero => intro current execs d hd; exact Or.inl hd
  | succ fuel ih =>
    intro current execs d hd
    simp only [ScheduledTransfer.pendingLoop] at hd
    by_cases h1 : dtLt now (ScheduledTransfer.advance pattern current)
    · rw [if_pos h1] at hd
      exact Or.inl hd
    · rw [if_neg h1] at hd
      by_cases h2 : dtLt e (ScheduledTransfer.advance pattern current)
      · rw [if_pos h2] at hd
        exact Or.inl hd
      · rw [if_neg h2] at hd
        rcases ih _ _ _ hd with hmem | hle
        · rcases List.mem_append.mp hmem with hmem | hmem
          · exact Or.inl hmem
          · simp only [List.mem_singleton] at hmem
            subst hmem
            exact Or.inr (dtLe_of_not_dtLt h2)
        · exact Or.inr hle

/-! ## Claim theorems: recurrence engine -/

/-- Claim C3: calendar advancement clamps instead of erroring or skipping.
First conjunct: for an active `Monthly` schedule with no end date whose
reached reference date has a day-of-month that does not exist in the next
month, `next_execution_date` returns the last day of the target month.
Second conjunct: for an active `Yearly` schedule whose reached reference
date is Feb 29, `next_execution_date` returns Feb 28 of the next year when
that year is not a leap year. -/
theorem claim_C3 :
    (∀ (s : ScheduledTransfer) (dt now : DateTime),
        s.status = ScheduleStatus.active →
        s.pattern = RecurrencePattern.monthly →
        s.end_date = none →
        s.last_executed_at = some dt →
        dtLe dt now →
        validDate dt.date →
        daysInMonth (firstOfNextMonth dt.date).year
            (firstOfNextMonth dt.date).month < dt.date.day →
        ScheduledTransfer.next_execution_date s now =
          some ⟨⟨(firstOfNextMonth dt.date).year,
            (firstOfNextMonth dt.date).month,
            daysInMonth (firstOfNextMonth dt.date).year
              (firstOfNextMonth dt.date).month⟩, dt.sec⟩) ∧
      (∀ (s : ScheduledTransfer) (dt now : DateTime),
        s.status = ScheduleStatus.active →
        s.pattern = RecurrencePattern.yearly →
        s.end_date = none →
        s.last_executed_at = some dt →
        dtLe dt now →
        dt.date.month = 2 →
        dt.date.day = 29 →
        ¬ isLeap (dt.date.year + 1) →
        ScheduledTransfer.next_execution_date s now =
          some ⟨⟨dt.date.year + 1, 2, 28⟩, dt.sec⟩) := by
  constructor
  · intro s dt now h1 hp h3 h4 h5 hv hgt
    rw [next_execution_date_active s now dt h1 h4 h3 h5, hp]
    exact congrArg some (add_one_month_clamp dt hv hgt)
  · intro s dt now h1 hp h3 h4 h5 hm hd hnl
    rw [next_execution_date_active s now dt h1 h4 h3 h5, hp]
    exact congrArg some (add_one_year_feb29 dt hm hd hnl)

/-- Witness for C3: 2024-01-31 advances to 2024-02-29, 2023-01-31 advances
to 2023-02-28, and yearly 2024-02-29 advances to 2025-02-28. -/
theorem claim_C3_witness :
    ScheduledTransfer.next_execution_date
        (mkSchedule RecurrencePattern.monthly (dtOf 2024 1 31) none
          (some (dtOf 2024 1 31))) (dtOf 2024 1 31) = some (dtOf 2024 2 29) ∧
      ScheduledTransfer.next_execution_date
        (mkSchedule RecurrencePattern.monthly (dtOf 2023 1 31) none
          (some (dtOf 2023 1 31))) (dtOf 2023 1 31) = some (dtOf 2023 2 28) ∧
      ScheduledTransfer.next_execution_date
        (mkSchedule RecurrencePattern.yearly (dtOf 2024 2 29) none
          (some (dtOf 2024 2 29))) (dtOf 2024 2 29) = some (dtOf 2025 2 28) :=
  ⟨(claim_C3.1 _ (dtOf 2024 1 31) _ rfl rfl rfl rfl (by decide) (by decide)
      (by decide)).trans (by decide),
    (claim_C3.1 _ (dtOf 2023 1 31) _ rfl rfl rfl rfl (by decide) (by decide)
      (by decide)).trans (by decide),
    (claim_C3.2 _ (dtOf 2024 2 29) _ rfl rfl rfl rfl (by decide) (by decide)
      (by decide) (by decide)).trans (by decide)⟩

/-- Claim C6: an active `Daily` schedule starting 2024-01-01, never
executed and with no end date, has exactly the pending executions
2024-01-01 through 2024-01-05 (in order, starting with `start_date`) when
asked at 2024-01-05. -/
theorem claim_C6 :
    ScheduledTransfer.pending_executions
        (mkSchedule RecurrencePattern.daily (dtOf 2024 1 1) none none)
        (dtOf 2024 1 5) =
      [dtOf 2024 1 1, dtOf 2024 1 2, dtOf 2024 1 3, dtOf 2024 1 4,
        dtOf 2024 1 5] := by
  decide

/-- Counterexample to C7 as stated: a never-executed active daily schedule
with `start_date` 2024-01-10 and `end_date` 2024-01-03 still emits
`start_date` (the initial push is not checked against `end_date`), so not
every returned date is bounded by `end_date`. -/
theorem claim_C7_counterexample :
    ¬ ∀ d ∈ ScheduledTransfer.pending_executions
          (mkSchedule RecurrencePattern.daily (dtOf 2024 1 10)
            (some (dtOf 2024 1 3)) none)
          (dtOf 2024 1 15),
        dtLe d (dtOf 2024 1 3) := by
  decide

/-- Claim C7 (amended): for a schedule with an end date, every date in
`pending_executions` is bounded by the end date, except possibly the
initial `start_date` element emitted for a never-executed schedule, which
is not checked against the end date. -/
theorem claim_C7 (s : ScheduledTransfer) (now e d : DateTime)
    (he : s.end_date = some e)
    (hd : d ∈ ScheduledTransfer.pending_executions s now) :
    dtLe d e ∨ (s.last_executed_at = none ∧ d = s.start_date) := by
  simp only [ScheduledTransfer.pending_executions, he] at hd
  by_cases h1 : s.status ≠ ScheduleStatus.active
  · rw [if_pos h1] at hd
    exact absurd hd (List.not_mem_nil d)
  · rw [if_neg h1] at hd
    by_cases h2 : dtLt now (s.last_executed_at.getD s.start_date)
    · rw [if_pos h2] at hd
      exact absurd hd (List.not_mem_nil d)
    · rw [if_neg h2] at hd
      by_cases h3 : s.last_executed_at = none ∧ dtLe s.start_date now
      · rw [if_pos h3] at hd
        rcases pendingLoop_mem_bounded _ _ _ _ _ _ _ hd with hmem | hle
        · simp only [List.mem_singleton] at hmem
          exact Or.inr ⟨h3.1, hmem⟩
        · exact Or.inl hle
      · rw [if_neg h3] at hd
        rcases pendingLoop_mem_bounded _ _ _ _ _ _ _ hd with hmem | hle
        · exact absurd hmem (List.not_mem_nil d)
        · exact Or.inl hle

/-- Witness for the amended C7 at a concrete daily schedule with end date
2024-01-03 and the loop-generated element 2024-01-02. -/
theorem claim_C7_witness :
    dtLe (dtOf 2024 1 2) (dtOf 2024 1 3) ∨
      ((mkSchedule RecurrencePattern.daily (dtOf 2024 1 1)
          (some (dtOf 2024 1 3)) none).last_executed_at = none ∧
        dtOf 2024 1 2 =
          (mkSchedule RecurrencePattern.daily (dtOf 2024 1 1)
            (some (dtOf 2024 1 3)) none).start_date) :=
  claim_C7 _ (dtOf 2024 1 10) _ _ rfl (by decide)


/-! ## Money lemmas: digits and decimal representations -/

theorem digitChar_isDigit (n : Nat) (h : n < 10) :
    isDigitCh (digitChar n) = true := by
  interval_cases n <;> decide

theorem digitVal_digitChar (n : Nat) (h : n < 10) :
    digitVal (digitChar n) = n := by
  interval_cases n <;> decide

/-- A digit character is not a separator, sign, or whitespace. -/
theorem isDigitCh_facts (c : Char) (h : isDigitCh c = true) :
    c ≠ '.' ∧ c ≠ '-' ∧ c ≠ '+' ∧ isWsCh c = false := by
  refine ⟨?_, ?_, ?_, ?_⟩
  · rintro rfl; exact absurd h (by decide)
  · rintro rfl; exact absurd h (by decide)
  · rintro rfl; exact absurd h (by decide)
  · by_contra hw
    simp only [Bool.not_eq_false] at hw
    simp only [isWsCh, decide_eq_true_eq] at hw
    rcases hw with rfl | rfl | rfl | rfl <;> exact absurd h (by decide)

theorem natDigitsList_lt (n : Nat) (h : n < 10) :
    natDigitsList n = [digitChar n] := by
  unfold natDigitsList
  rw [dif_pos h]

theorem natDigitsList_ge (n : Nat) (h : ¬ n < 10) :
    natDigitsList n = natDigitsList (n / 10) ++ [digitChar (n % 10)] := by
  conv_lhs => unfold natDigitsList
  rw [dif_neg h]

theorem natDigitsList_ne_nil (n : Nat) : natDigitsList n ≠ [] := by
  by_cases h : n < 10
  · rw [natDigitsList_lt n h]; simp
  · rw [natDigitsList_ge n h]; simp

theorem natDigitsList_all_digits (n : Nat) :
    ∀ c ∈ natDigitsList n, isDigitCh c = true := by
  induction n using Nat.strong_induction_on with
  | _ n ih =>
    by_cases h : n < 10
    · rw [natDigitsList_lt n h]
      intro c hc
      simp only [List.mem_singleton] at hc
      subst hc
      exact digitChar_isDigit n h
    · rw [natDigitsList_ge n h]
      intro c hc
      rcases List.mem_append.mp hc with hc | hc
      · exact ih (n / 10) (Nat.div_lt_self (by omega) (by omega)) c hc
      · simp only [List.mem_singleton] at hc
        subst hc
        exact digitChar_isDigit (n % 10) (Nat.mod_lt n (by omega))

/-- Evaluating the digit fold from an arbitrary initial value. -/
theorem digitsVal_foldl_init (b : List Char) :
    ∀ x : Nat,
      b.foldl (fun a c => 10 * a + digitVal c) x =
        x * 10 ^ b.length + digitsVal b := by
  induction b with
  | nil => intro x; simp [digitsVal]
  | cons c b ih =>
    intro x
    simp only [digitsVal, List.foldl_cons, List.length_cons] at ih ⊢
    rw [ih (10 * x + digitVal c), ih (10 * 0 + digitVal c)]
    ring

theorem digitsVal_append (a b : List Char) :
    digitsVal (a ++ b) = digitsVal a * 10 ^ b.length + digitsVal b := by
  simp only [digitsVal, List.foldl_append]
  exact digitsVal_foldl_init b _

theorem digitsVal_singleton (c : Char) : digitsVal [c] = digitVal c := by
  simp [digitsVal]

theorem digitsVal_natDigitsList (n : Nat) :
    digitsVal (natDigitsList n) = n := by
  induction n using Nat.strong_induction_on with
  | _ n ih =>
    by_cases h : n < 10
    · rw [natDigitsList_lt n h, digitsVal_singleton, digitVal_digitChar n h]
    · rw [natDigitsList_ge n h, digitsVal_append, digitsVal_singleton,
        digitVal_digitChar (n % 10) (Nat.mod_lt n (by omega)),
        ih (n / 10) (Nat.div_lt_self (by omega) (by omega))]
      simp only [List.length_singleton, pow_one]
      omega

/-- With positive fuel at least the number of digits, the accumulator
formulation agrees with the recursion-friendly one. -/
theorem natReprGo_eq :
    ∀ (fuel n : Nat) (acc : List Char), 0 < fuel → n < 10 ^ fuel →
      natReprGo fuel n acc = natDigitsList n ++ acc := by
  intro fuel
  induction fuel with
  | zero => intro n acc h; omega
  | succ fuel ih =>
    intro n acc _ hlt
    simp only [natReprGo]
    split_ifs with h
    · rw [natDigitsList_lt n h]
      rfl
    · have hfuel : 0 < fuel := by
        rcases Nat.eq_zero_or_pos fuel with hf | hf
        · subst hf
          norm_num at hlt
          omega
        · exact hf
      have hdiv : n / 10 < 10 ^ fuel := by
        rw [pow_succ, mul_comm] at hlt
        exact Nat.div_lt_of_lt_mul hlt
      rw [ih (n / 10) _ hfuel hdiv, natDigitsList_ge n h]
      simp

theorem natRepr_eq (n : Nat) : natRepr n = natDigitsList n := by
  have h1 : n < 10 ^ (n + 1) :=
    lt_of_lt_of_le (Nat.lt_pow_self (by norm_num) n)
      (Nat.pow_le_pow_right (by norm_num) (by omega))
  unfold natRepr
  rw [natReprGo_eq (n + 1) n [] (by omega) h1, List.append_nil]

theorem natRepr_ne_nil (n : Nat) : natRepr n ≠ [] := by
  rw [natRepr_eq]; exact natDigitsList_ne_nil n

theorem natRepr_all_digits (n : Nat) :
    ∀ c ∈ natRepr n, isDigitCh c = true := by
  rw [natRepr_eq]; exact natDigitsList_all_digits n

theorem digitsVal_natRepr (n : Nat) : digitsVal (natRepr n) = n := by
  rw [natRepr_eq]; exact digitsVal_natDigitsList n

theorem natRepr_lt10 (n : Nat) (h : n < 10) : natRepr n = [digitChar n] := by
  rw [natRepr_eq]; exact natDigitsList_lt n h

theorem natRepr_two_digits (n : Nat) (h1 : 10 ≤ n) (h2 : n < 100) :
    natRepr n = [digitChar (n / 10), digitChar (n % 10)] := by
  rw [natRepr_eq, natDigitsList_ge n (by omega),
    natDigitsList_lt (n / 10) (by omega)]
  rfl

/-- Everything `format!("{:02}", r)` produces for `r ≤ 99`: two characters,
all digits, decoding back to `r`. -/
theorem pad2_spec (r : Nat) (hr : r ≤ 99) :
    (pad2 r).length = 2 ∧ (∀ c ∈ pad2 r, isDigitCh c = true) ∧
      digitsVal (pad2 r) = r := by
  by_cases h : r < 10
  · have hrep : natRepr r = [digitChar r] := natRepr_lt10 r h
    have hpad : pad2 r = '0' :: [digitChar r] := by
      unfold pad2
      rw [hrep]
      rfl
    refine ⟨by rw [hpad]; rfl, ?_, ?_⟩
    · intro c hc
      rw [hpad] at hc
      rcases List.mem_cons.mp hc with rfl | hc
      · decide
      · simp only [List.mem_singleton] at hc
        subst hc
        exact digitChar_isDigit r h
    · rw [hpad]
      rw [show ('0' :: [digitChar r]) = ['0'] ++ [digitChar r] from rfl,
        digitsVal_append, digitsVal_singleton, digitsVal_singleton,
        digitVal_digitChar r h, show digitVal '0' = 0 from by decide]
      simp
  · have hrep : natRepr r = [digitChar (r / 10), digitChar (r % 10)] :=
      natRepr_two_digits r (by omega) (by omega)
    have hpad : pad2 r = natRepr r := by
      unfold pad2
      rw [hrep]
      rfl
    rw [hpad, hrep]
    refine ⟨rfl, ?_, ?_⟩
    · rw [← hrep]
      exact natRepr_all_digits r
    · rw [← hrep]
      exact digitsVal_natRepr r


/-! ## Money lemmas: parsing primitives -/

/-- `str::parse::<i64>` on a nonempty all-digit string within range
succeeds with the decoded value. -/
theorem parseI64_digits (s : List Char) (hne : s ≠ [])
    (hdig : ∀ c ∈ s, isDigitCh c = true)
    (hbound : (digitsVal s : Int) ≤ i64Max) :
    parseI64 s = some ((digitsVal s : Int)) := by
  cases s with
  | nil => exact absurd rfl hne
  | cons c rest =>
    have hc := hdig c (List.mem_cons_self _ _)
    obtain ⟨-, hcm, hcp, -⟩ := isDigitCh_facts c hc
    have hsign : ¬ (c = '+' ∨ c = '-') := by
      rintro (h | h)
      · exact hcp h
      · exact hcm h
    have hall : (c :: rest).all isDigitCh = true :=
      List.all_eq_true.mpr (fun x hx => hdig x hx)
    have hnonneg : i64Min ≤ (digitsVal (c :: rest) : Int) :=
      le_trans (by norm_num [i64Min]) (Int.natCast_nonneg _)
    simp only [parseI64]
    rw [if_neg hsign, if_neg (List.cons_ne_nil c rest), if_pos hall,
      if_neg hcm, if_pos ⟨hnonneg, hbound⟩]

theorem splitCh_ne_nil (sep : Char) (s : List Char) : splitCh sep s ≠ [] := by
  induction s with
  | nil => simp [splitCh]
  | cons c t ih =>
    simp only [splitCh]
    split_ifs with h
    · simp
    · cases hs : splitCh sep t with
      | nil => exact absurd hs ih
      | cons p ps => simp

theorem splitCh_no_sep (sep : Char) (s : List Char)
    (h : ∀ c ∈ s, c ≠ sep) : splitCh sep s = [s] := by
  induction s with
  | nil => rfl
  | cons c t ih =>
    simp only [splitCh]
    rw [if_neg (h c (List.mem_cons_self _ _)),
      ih (fun x hx => h x (List.mem_cons_of_mem _ hx))]

theorem splitCh_append (sep : Char) (a b : List Char)
    (ha : ∀ c ∈ a, c ≠ sep) :
    splitCh sep (a ++ sep :: b) = a :: splitCh sep b := by
  induction a with
  | nil =>
    simp [List.nil_append, splitCh]
  | cons c a ih =>
    have hrec : splitCh sep (a.append (sep :: b)) = a :: splitCh sep b :=
      ih (fun x hx => ha x (List.mem_cons_of_mem _ hx))
    simp only [List.cons_append, splitCh, hrec]
    rw [if_neg (ha c (List.mem_cons_self _ _))]

theorem splitCh_length (sep : Char) (s : List Char) :
    (splitCh sep s).length = countCh sep s + 1 := by
  induction s with
  | nil => simp [splitCh, countCh]
  | cons c t ih =>
    simp only [splitCh]
    split_ifs with hc
    · simp only [List.length_cons, countCh, List.filter_cons,
        decide_eq_true_eq, if_pos hc] at ih ⊢
      omega
    · cases hs : splitCh sep t with
      | nil => exact absurd hs (splitCh_ne_nil sep t)
      | cons p ps =>
        rw [hs] at ih
        simp only [List.length_cons, countCh, List.filter_cons] at ih ⊢
        have : ¬ decide (c = sep) = true := by simpa using hc
        rw [if_neg this]
        simpa using ih

theorem dropWhile_eq_self_of_all {p : Char → Bool} (s : List Char)
    (h : ∀ c ∈ s, p c = false) : s.dropWhile p = s := by
  cases s with
  | nil => rfl
  | cons c t =>
    rw [List.dropWhile_cons, h c (List.mem_cons_self _ _)]
    simp

theorem trimWs_eq_self (s : List Char) (h : ∀ c ∈ s, isWsCh c = false) :
    trimWs s = s := by
  unfold trimWs
  rw [dropWhile_eq_self_of_all s h,
    dropWhile_eq_self_of_all s.reverse
      (fun c hc => h c (List.mem_reverse.mp hc)),
    List.reverse_reverse]


/-! ## Money lemmas: parsing the canonical formatted shapes -/

/-- A checked `i64` result inside the range is the plain value. -/
theorem checkedI64_in (v : Int) (h1 : i64Min ≤ v) (h2 : v ≤ i64Max) :
    checkedI64 v = some v := by
  unfold checkedI64
  rw [if_pos ⟨h1, h2⟩]

/-- `parse_cents` on an unsigned canonical shape `D ++ "." ++ P`, `D` a
nonempty digit string of value `u` and `P` a two-digit string of value
`r`, yields `u * 100 + r`. -/
theorem parse_cents_digits_dot (D P : List Char) (u r : Nat)
    (hDne : D ≠ []) (hDdig : ∀ ch ∈ D, isDigitCh ch = true)
    (hDval : digitsVal D = u)
    (hPlen : P.length = 2) (hPdig : ∀ ch ∈ P, isDigitCh ch = true)
    (hPval : digitsVal P = r)
    (hbound : (u : Int) * 100 + (r : Int) ≤ i64Max) :
    parse_cents (D ++ '.' :: P) =
      ParseOutcome.ok ((u : Int) * 100 + (r : Int)) := by
  obtain ⟨c, cs, rfl⟩ : ∃ c cs, D = c :: cs := by
    cases D with
    | nil => exact absurd rfl hDne
    | cons c cs => exact ⟨c, cs, rfl⟩
  have hcdig : isDigitCh c = true := hDdig c (List.mem_cons_self _ _)
  obtain ⟨hcdot, hcdash, -, -⟩ := isDigitCh_facts c hcdig
  have hPne : P ≠ [] := by
    intro h
    rw [h] at hPlen
    simp at hPlen
  have hnws : ∀ ch ∈ (c :: cs) ++ '.' :: P, isWsCh ch = false := by
    intro ch hch
    rcases List.mem_append.mp hch with h | h
    · exact (isDigitCh_facts ch (hDdig ch h)).2.2.2
    · rcases List.mem_cons.mp h with rfl | h
      · decide
      · exact (isDigitCh_facts ch (hPdig ch h)).2.2.2
  have h1 : trimWs ((c :: cs) ++ '.' :: P) = (c :: cs) ++ '.' :: P :=
    trimWs_eq_self _ hnws
  have h2 : ((c :: cs) ++ '.' :: P).head? = some c := by simp
  have h3 : List.dropWhile (fun ch => decide (ch = '-'))
      ((c :: cs) ++ '.' :: P) = (c :: cs) ++ '.' :: P := by
    rw [List.cons_append, List.dropWhile_cons]
    simp [hcdash]
  have h4 : splitCh '.' ((c :: cs) ++ '.' :: P) = [c :: cs, P] := by
    rw [splitCh_append '.' (c :: cs) P
        (fun ch hch => (isDigitCh_facts ch (hDdig ch hch)).1),
      splitCh_no_sep '.' P
        (fun ch hch => (isDigitCh_facts ch (hPdig ch hch)).1)]
  have hmax : i64Max = 9223372036854775807 := by norm_num [i64Max]
  have hmin : i64Min = -9223372036854775808 := by norm_num [i64Min]
  have hubound : (digitsVal (c :: cs) : Int) ≤ i64Max := by
    rw [hDval]
    rw [hmax] at hbound ⊢
    omega
  have hu : parseI64 (c :: cs) = some ((digitsVal (c :: cs) : Int)) :=
    parseI64_digits _ (List.cons_ne_nil c cs) hDdig hubound
  have hrbound : (digitsVal P : Int) ≤ i64Max := by
    rw [hPval, hmax]
    rw [hmax] at hbound
    omega
  have hp : parseI64 P = some ((digitsVal P : Int)) :=
    parseI64_digits _ hPne hPdig hrbound
  have hnegcond : ¬ (some c = some '-') := by
    intro h
    exact hcdash (Option.some.inj h)
  simp only [parse_cents]
  rw [h1, h2, h3, h4]
  dsimp only
  rw [if_neg (List.cons_ne_nil c cs), hu]
  dsimp only
  rw [hPlen]
  dsimp only
  rw [hp]
  dsimp only
  rw [hDval, hPval]
  rw [checkedI64_in ((u : Int) * 100) (by rw [hmin]; omega)
      (by rw [hmax] at hbound ⊢; omega)]
  dsimp only
  rw [checkedI64_in ((u : Int) * 100 + (r : Int)) (by rw [hmin]; omega) hbound]
  dsimp only
  rw [if_neg hnegcond]

/-- `parse_cents` on the negative canonical shape `"-" ++ D ++ "." ++ P`
yields `-(u * 100 + r)`. -/
theorem parse_cents_neg_digits_dot (D P : List Char) (u r : Nat)
    (hDne : D ≠ []) (hDdig : ∀ ch ∈ D, isDigitCh ch = true)
    (hDval : digitsVal D = u)
    (hPlen : P.length = 2) (hPdig : ∀ ch ∈ P, isDigitCh ch = true)
    (hPval : digitsVal P = r)
    (hbound : (u : Int) * 100 + (r : Int) ≤ i64Max) :
    parse_cents ('-' :: D ++ '.' :: P) =
      ParseOutcome.ok (-((u : Int) * 100 + (r : Int))) := by
  obtain ⟨c, cs, rfl⟩ : ∃ c cs, D = c :: cs := by
    cases D with
    | nil => exact absurd rfl hDne
    | cons c cs => exact ⟨c, cs, rfl⟩
  have hcdig : isDigitCh c = true := hDdig c (List.mem_cons_self _ _)
  obtain ⟨hcdot, hcdash, -, -⟩ := isDigitCh_facts c hcdig
  have hPne : P ≠ [] := by
    intro h
    rw [h] at hPlen
    simp at hPlen
  have hnws : ∀ ch ∈ '-' :: (c :: cs) ++ '.' :: P, isWsCh ch = false := by
    intro ch hch
    rcases List.mem_cons.mp hch with rfl | hch
    · decide
    · rcases List.mem_append.mp hch with h | h
      · exact (isDigitCh_facts ch (hDdig ch h)).2.2.2
      · rcases List.mem_cons.mp h with rfl | h
        · decide
        · exact (isDigitCh_facts ch (hPdig ch h)).2.2.2
  have h1 : trimWs ('-' :: (c :: cs) ++ '.' :: P) =
      '-' :: (c :: cs) ++ '.' :: P :=
    trimWs_eq_self _ hnws
  have h2 : ('-' :: (c :: cs) ++ '.' :: P).head? = some '-' := rfl
  have h3a : List.dropWhile (fun ch => decide (ch = '-'))
      ((c :: cs) ++ '.' :: P) = (c :: cs) ++ '.' :: P := by
    rw [List.cons_append, List.dropWhile_cons]
    simp [hcdash]
  have h3 : List.dropWhile (fun ch => decide (ch = '-'))
      ('-' :: (c :: cs) ++ '.' :: P) = (c :: cs) ++ '.' :: P := by
    rw [List.cons_append, List.dropWhile_cons]
    simpa using h3a
  have h4 : splitCh '.' ((c :: cs) ++ '.' :: P) = [c :: cs, P] := by
    rw [splitCh_append '.' (c :: cs) P
        (fun ch hch => (isDigitCh_facts ch (hDdig ch hch)).1),
      splitCh_no_sep '.' P
        (fun ch hch => (isDigitCh_facts ch (hPdig ch hch)).1)]
  have hmax : i64Max = 9223372036854775807 := by norm_num [i64Max]
  have hmin : i64Min = -9223372036854775808 := by norm_num [i64Min]
  have hubound : (digitsVal (c :: cs) : Int) ≤ i64Max := by
    rw [hDval]
    rw [hmax] at hbound ⊢
    omega
  have hu : parseI64 (c :: cs) = some ((digitsVal (c :: cs) : Int)) :=
    parseI64_digits _ (List.cons_ne_nil c cs) hDdig hubound
  have hrbound : (digitsVal P : Int) ≤ i64Max := by
    rw [hPval, hmax]
    rw [hmax] at hbound
    omega
  have hp : parseI64 P = some ((digitsVal P : Int)) :=
    parseI64_digits _ hPne hPdig hrbound
  simp only [parse_cents]
  rw [h1, h2, h3, h4]
  dsimp only
  rw [if_neg (List.cons_ne_nil c cs), hu]
  dsimp only
  rw [hPlen]
  dsimp only
  rw [hp]
  dsimp only
  rw [hDval, hPval]
  rw [checkedI64_in ((u : Int) * 100) (by rw [hmin]; omega)
      (by rw [hmax] at hbound ⊢; omega)]
  dsimp only
  rw [checkedI64_in ((u : Int) * 100 + (r : Int)) (by rw [hmin]; omega) hbound]
  dsimp only
  rw [if_pos rfl]
  rw [checkedI64_in (-((u : Int) * 100 + (r : Int)))
      (by rw [hmin]; rw [hmax] at hbound; omega)
      (by rw [hmax]; omega)]


/-! ## Claim theorems: money -/

/-- Counterexample to C8 as stated: at `x = i64::MIN` the claim fails,
because `format_cents` begins with `i64::abs`, which overflows (panics in
a debug build) on `i64::MIN`, so no string is produced at all, let alone
one parsing back to `x`. -/
theorem claim_C8_counterexample :
    ¬ ∃ s, format_cents i64Min = some s ∧
        parse_cents s = ParseOutcome.ok i64Min := by
  rintro ⟨s, hs, -⟩
  have hnone : format_cents i64Min = none := by
    simp [format_cents, i64Abs]
  rw [hnone] at hs
  exact Option.noConfusion hs

/-- Claim C8 (amended): for every `Cents` value except `i64::MIN`,
`format_cents` produces a string and `parse_cents` maps it back to the
original value. -/
theorem claim_C8 (x : Cents) (h1 : i64Min < x) (h2 : x ≤ i64Max) :
    ∃ s, format_cents x = some s ∧ parse_cents s = ParseOutcome.ok x := by
  obtain ⟨y, rfl⟩ : ∃ y : Int, (y : Cents) = x := ⟨x, rfl⟩
  have h1i : (-9223372036854775808 : Int) < y := h1
  have h2i : y ≤ (9223372036854775807 : Int) := h2
  have hyne : y ≠ i64Min := by
    rw [show i64Min = -9223372036854775808 from rfl]
    omega
  have hfmt : format_cents y = some ((if y < 0 then ['-'] else []) ++
      natRepr (y.natAbs / 100) ++ '.' :: pad2 (y.natAbs % 100)) := by
    simp only [format_cents, i64Abs, if_neg hyne, Option.map_some']
  have hr99 : y.natAbs % 100 ≤ 99 := by omega
  have hb : ((y.natAbs / 100 : Nat) : Int) * 100 + ((y.natAbs % 100 : Nat) : Int) ≤
      i64Max := by
    rw [show i64Max = 9223372036854775807 from rfl]
    omega
  obtain ⟨hplen, hpdig, hpval⟩ := pad2_spec (y.natAbs % 100) hr99
  by_cases hneg : y < 0
  · have heq : -(((y.natAbs / 100 : Nat) : Int) * 100 +
        ((y.natAbs % 100 : Nat) : Int)) = y := by omega
    refine ⟨_, hfmt, ?_⟩
    rw [if_pos hneg, List.singleton_append,
      parse_cents_neg_digits_dot (natRepr (y.natAbs / 100))
        (pad2 (y.natAbs % 100)) (y.natAbs / 100) (y.natAbs % 100)
        (natRepr_ne_nil _) (natRepr_all_digits _) (digitsVal_natRepr _)
        hplen hpdig hpval hb, heq]
  · have hpos : 0 ≤ y := not_lt.mp hneg
    have heq : ((y.natAbs / 100 : Nat) : Int) * 100 +
        ((y.natAbs % 100 : Nat) : Int) = y := by omega
    refine ⟨_, hfmt, ?_⟩
    rw [if_neg hneg, List.nil_append,
      parse_cents_digits_dot (natRepr (y.natAbs / 100))
        (pad2 (y.natAbs % 100)) (y.natAbs / 100) (y.natAbs % 100)
        (natRepr_ne_nil _) (natRepr_all_digits _) (digitsVal_natRepr _)
        hplen hpdig hpval hb, heq]

/-- Witness for the amended C8 at `x = -12345` (formats to `"-123.45"` and
parses back). -/
theorem claim_C8_witness :
    ∃ s, format_cents (-12345) = some s ∧
      parse_cents s = ParseOutcome.ok (-12345) :=
  claim_C8 (-12345) (by decide) (by decide)

/-- Counterexample to C9 as stated: inputs with an embedded sign in the
decimal part, a second leading minus, or a plus prefix are accepted by
`parse_cents` (Rust `i64::from_str` accepts a leading sign, and all
leading minus characters are stripped), not rejected as `InvalidFormat`. -/
theorem claim_C9_counterexample :
    parse_cents ['1', '2', '.', '-', '5'] = ParseOutcome.ok 1195 ∧
      parse_cents ['-', '-', '1', '2'] = ParseOutcome.ok (-1200) ∧
      parse_cents ['+', '1', '2'] = ParseOutcome.ok 1200 ∧
      parse_cents ['1', '2', '.', '-', '5'] ≠ ParseOutcome.invalidFormat := by
  refine ⟨by decide, by decide, by decide, by decide⟩

/-- Claim C9 (amended): `parse_cents` rejects with `InvalidFormat` every
input that, after trimming and stripping all leading minus signs, contains
more than one dot; non-digit content that forms a sign accepted by Rust
`i64` parsing (or trailing content beyond two decimal digits) does not
necessarily fail. -/
theorem claim_C9 (input : List Char)
    (h : 2 ≤ countCh '.' ((trimWs input).dropWhile (fun c => c = '-'))) :
    parse_cents input = ParseOutcome.invalidFormat := by
  have hlen : 3 ≤ (splitCh '.'
      ((trimWs input).dropWhile (fun c => decide (c = '-')))).length := by
    rw [splitCh_length]
    omega
  simp only [parse_cents]
  rcases hsp : splitCh '.'
      ((trimWs input).dropWhile (fun c => decide (c = '-'))) with
    _ | ⟨p0, _ | ⟨p1, _ | ⟨p2, ps⟩⟩⟩
  · simp [hsp] at hlen
  · simp [hsp] at hlen
  · simp [hsp] at hlen
  · rfl

/-- Witness for the amended C9 at the double-dot input `"12.34.56"`. -/
theorem claim_C9_witness :
    parse_cents ['1', '2', '.', '3', '4', '.', '5', '6'] =
      ParseOutcome.invalidFormat :=
  claim_C9 _ (by decide)

end Pecunio
